import Mathlib

/-!
# Verification of `generate.py` (austinpray/docker-python-node)

Shallow embedding of the version-matrix tag-grouping core of `generate.py`
(`travis_yaml_add_stages`, `strip_version`, `group_by_version`,
`make_build_stage`) together with the surrounding pipeline structure
(`update_travis_yaml`, `generate_dockerfiles`, `main`).

Conventions of the embedding:
* A `packaging.version.Version` built from a plain `major.minor.patch`-style
  release string is modelled as its list of numeric release components
  (`Ver := List Nat`); `str(version)` re-renders the components joined by
  dots, and comparison uses the release tuple with trailing zero components
  dropped, exactly as `packaging`'s `_cmpkey` does for release-only versions.
* Python's ordered `dict` is modelled as an association list in insertion
  order.
* Operations that can raise a Python exception (comparing a `Version` with
  `None` inside `list.sort` raises `TypeError`) return `Except Unit`.
-/

/-- A release-only `packaging.version.Version`: the list of numeric
dot-separated components, e.g. `3.9.1 ↦ [3, 9, 1]`. -/
abbrev Ver := List Nat

/-- The comparison key of a release: `packaging`'s `_cmpkey` drops trailing
zero components of the release tuple before comparing. -/
def releaseKey (v : Ver) : Ver := (v.reverse.dropWhile (· == 0)).reverse

/-- Strict lexicographic order on release-component lists, matching Python
tuple comparison on the release tuples (a proper prefix is smaller). -/
def verListLt : Ver → Ver → Bool
  | _, [] => false
  | [], _ :: _ => true
  | a :: as, b :: bs => a < b || (a == b && verListLt as bs)

/-- One discovered Dockerfile with the versions parsed from its
`ENV PYTHON_VERSION` / `ENV NODE_VERSION` lines by
`get_versions_from_dockerfile`; a missing declaration leaves `none`. -/
structure Artifact where
  dockerfile_path : String
  python_version : Option Ver
  node_version : Option Ver
deriving DecidableEq, Repr

/-- `str(version)` for an optional version: `str(None) = "None"`, and a
release-only `Version` prints its components joined by dots. -/
def versionStr : Option Ver → String
  | none => "None"
  | some v => String.intercalate "." (v.map (fun c => toString c))

/-- `str(version).split('.')`: for a release-only version every dot-separated
component is one numeral, and `"None"` contains no dot, so it is the single
component `["None"]`. -/
def versionParts : Option Ver → List String
  | none => ["None"]
  | some v => v.map (fun c => toString c)

/-- Python list slicing `l[:n]`: the first `n` elements when `n ≥ 0`, and the
first `len(l) + n` elements (none if that is not positive) when `n < 0`. -/
def pySlice (l : List String) (n : Int) : List String :=
  if n < 0 then l.take (((l.length : Int) + n).toNat) else l.take n.toNat

/-- `strip_version(version, n)`: for `n = 0` join all components of
`str(version).split('.')` back together (the full string); otherwise join
the slice `[:n]`. -/
def stripVersion (ov : Option Ver) (n : Int) : String :=
  if n = 0 then String.intercalate "." (versionParts ov)
  else String.intercalate "." (pySlice (versionParts ov) n)

/-- The TagKey of an artifact under one offset pair:
`''.join([strip_version(py, py_offset), '-', strip_version(node, node_offset)])`. -/
def tagKey (a : Artifact) (po no : Int) : String :=
  stripVersion a.python_version po ++ "-" ++ stripVersion a.node_version no

/-- Python `==` on the optional versions inside the sort-key tuple:
`Version == Version` compares release keys, `None == None` is true, and a
`Version` never equals `None`. Never raises. -/
def pyEqOpt : Option Ver → Option Ver → Bool
  | some a, some b => releaseKey a == releaseKey b
  | none, none => true
  | _, _ => false

/-- Python `<` on the optional versions inside the sort-key tuple:
defined between two `Version`s, and a `TypeError` (modelled as `.error ()`)
between a `Version` and `None` in either order. -/
def pyLtOpt : Option Ver → Option Ver → Except Unit Bool
  | some a, some b => .ok (verListLt (releaseKey a) (releaseKey b))
  | _, _ => .error ()

/-- Python tuple `<` on the sort key `(python_version, node_version)`:
scan for the first position where the components are not `==`, and compare
with `<` there; equal tuples are not `<`. -/
def artLt (a b : Artifact) : Except Unit Bool :=
  if pyEqOpt a.python_version b.python_version then
    if pyEqOpt a.node_version b.node_version then .ok false
    else pyLtOpt a.node_version b.node_version
  else pyLtOpt a.python_version b.python_version

/-- Stable insertion of `x` into an already-sorted prefix: `x` goes in front
of the first element it is strictly `<` than, raising whenever the
underlying comparison raises.  On a two-element input this performs exactly
the single `key(l[1]) < key(l[0])` comparison CPython's sort performs. -/
def insertSortedM (x : Artifact) : List Artifact → Except Unit (List Artifact)
  | [] => .ok [x]
  | y :: ys => do
      let b ← artLt x y
      if b then .ok (x :: y :: ys)
      else do
        let t ← insertSortedM x ys
        .ok (y :: t)

/-- `dockerfiles.sort(key=lambda x: (x['python_version'], x['node_version']))`:
a stable ascending comparison sort.  For total comparisons a stable sort is
unique, so this insertion sort agrees with CPython's sort; when a comparison
raises `TypeError` the whole sort raises. -/
def sortM (l : List Artifact) : Except Unit (List Artifact) :=
  l.foldlM (fun acc x => insertSortedM x acc) []

/-- Tuple `<` on two fully-present sort keys: compare the python releases,
and on equal python releases compare the node releases. -/
def verPairLt (pa na pb nb : Ver) : Bool :=
  if releaseKey pa == releaseKey pb then verListLt (releaseKey na) (releaseKey nb)
  else verListLt (releaseKey pa) (releaseKey pb)

/-- The pure comparison used by the sort when both artifacts carry both
versions (the only case in which no `TypeError` is possible). -/
def artLtP (a b : Artifact) : Bool :=
  match a.python_version, b.python_version, a.node_version, b.node_version with
  | some pa, some pb, some na, some nb => verPairLt pa na pb nb
  | _, _, _, _ => false

/-- Pure counterpart of `insertSortedM` for totally-comparable artifacts. -/
def insertP (x : Artifact) : List Artifact → List Artifact
  | [] => [x]
  | y :: ys => if artLtP x y then x :: y :: ys else y :: insertP x ys

/-- Pure counterpart of `sortM` for totally-comparable artifacts. -/
def pureSort (l : List Artifact) : List Artifact :=
  l.foldl (fun acc x => insertP x acc) []

/-- The body of `group_by_version`: walk the (sorted, reversed) artifact
list, and at the first artifact producing each TagKey emit
`(key, dockerfile_path)`; `seen` holds the keys already present in the
insertion-ordered dict. -/
def groupGo (po no : Int) (seen : List String) : List Artifact → List (String × String)
  | [] => []
  | df :: rest =>
      if tagKey df po no ∈ seen then groupGo po no seen rest
      else (tagKey df po no, df.dockerfile_path) :: groupGo po no (tagKey df po no :: seen) rest

/-- `group_by_version(py_offset, node_offset)`: the insertion-ordered dict
from TagKey to the first dockerfile path producing it. -/
def groupByVersion (l : List Artifact) (po no : Int) : List (String × String) :=
  groupGo po no [] l

/-- `options = [-2, -1, 0]`. -/
def options : List Int := [-2, -1, 0]

/-- `itertools.product(options, options)` in its iteration order. -/
def offsetPairs : List (Int × Int) :=
  (options.map (fun a => options.map (fun b => (a, b)))).flatten

/-- One step of the tag-accumulation loop: if `df` is not yet a key of
`dockerfile_tags` insert it with the one-element list `[tag]`, otherwise
append `tag` to its list (dict key order is unchanged by the append). -/
def addTag (m : List (String × List String)) (df tag : String) : List (String × List String) :=
  if m.any (fun p => p.1 == df) then
    m.map (fun p => if p.1 = df then (p.1, p.2 ++ [tag]) else p)
  else m ++ [(df, [tag])]

/-- The `(tag, dockerfile)` pairs visited by the double loop
`for t in itertools.product(options, options): for tag, dockerfile in
group_by_version(t[0], t[1]).items()`, in visiting order. -/
def tagPairs (rev : List Artifact) : List (String × String) :=
  (offsetPairs.map (fun t => groupByVersion rev t.1 t.2)).flatten

/-- The `dockerfile_tags` dict accumulated over all nine offset pairs. -/
def dockerfileTags (rev : List Artifact) : List (String × List String) :=
  (tagPairs rev).foldl (fun m p => addTag m p.2 p.1) []

/-- The Version Matrix Builder: sort the artifacts ascending by
`(python_version, node_version)`, reverse, then accumulate
`dockerfile_tags`; raises whenever the sort's comparison raises. -/
def buildTags (arts : List Artifact) : Except Unit (List (String × List String)) := do
  let sorted ← sortM arts
  pure (dockerfileTags sorted.reverse)

/-- First-match lookup in an insertion-ordered association list. -/
def lookupKey {α : Type} : List (String × α) → String → Option α
  | [], _ => none
  | p :: ps, k => if p.1 = k then some p.2 else lookupKey ps k

/-- Split a character list at every occurrence of the separator `c`,
keeping empty pieces — the semantics of Python `str.split` with a
one-character separator. -/
def charSplit (c : Char) : List Char → List (List Char)
  | [] => [[]]
  | x :: xs =>
      match charSplit c xs with
      | [] => [[]]
      | y :: ys => if x = c then [] :: y :: ys else (x :: y) :: ys

/-- Python `p.split('/')` as a list of strings. -/
def slashSplit (p : String) : List String :=
  (charSplit '/' p.data).map (fun l => { data := l })

/-- `os.path.dirname` for the slash-separated relative paths this script
builds (`dockerfiles/<tag>/Dockerfile`): everything before the last slash. -/
def dirname (p : String) : String :=
  let parts := slashSplit p
  if parts.length ≤ 1 then "" else String.intercalate "/" parts.dropLast

/-- One Travis CI build-stage record as built by `make_build_stage`
(`'if'` is rendered as the field `onlyIf`). -/
structure Stage where
  stage : String
  name : String
  onlyIf : String
  script : List String
deriving DecidableEq, Repr

/-- The fixed `docker login` script line. -/
def loginLine : String :=
  "echo \"$DOCKER_PASSWORD\" | docker login --username \"$DOCKER_USERNAME\" --password-stdin"

/-- The build command targeting the Dockerfile's parent directory. -/
def buildLine (p : String) : String :=
  "travis_retry docker build -t austinpray/python-node " ++ dirname p

/-- One image-tag line per tag. -/
def tagLine (t : String) : String :=
  "docker tag austinpray/python-node austinpray/python-node:" ++ t

/-- One conditional push-if-master line per tag. -/
def pushLine (t : String) : String :=
  "[ \"$TRAVIS_BRANCH\" = \"master\" ] && docker push austinpray/python-node:" ++ t

/-- `make_build_stage(dockerfile_path, tags)`. -/
def makeBuildStage (p : String) (tags : List String) : Stage :=
  { stage := "Image Builds"
    name := String.intercalate ", " tags
    onlyIf := "type NOT IN (cron)"
    script := ["set -e", loginLine, "# run tests", buildLine p]
      ++ tags.map tagLine ++ tags.map pushLine }

/-- A YAML value as far as this script manipulates one: a scalar string, a
sequence, or a mapping (insertion-ordered, as `yaml.safe_load` returns a
Python dict). -/
inductive YVal where
  | s (v : String)
  | arr (vs : List YVal)
  | obj (fields : List (String × YVal))

/-- The parsed `.travis.yml` document: a top-level mapping. -/
abbrev TravisDoc := List (String × YVal)

/-- Python `d[k] = v` on an insertion-ordered dict: replace the value in
place if the key is present (keeping its position), else append. -/
def setKey (d : TravisDoc) (k : String) (v : YVal) : TravisDoc :=
  if d.any (fun p => p.1 == k) then
    d.map (fun p => if p.1 = k then (p.1, v) else p)
  else d ++ [(k, v)]

/-- A `Stage` as the YAML mapping `make_build_stage` returns. -/
def stageYVal (st : Stage) : YVal :=
  .obj [("stage", .s st.stage), ("name", .s st.name), ("if", .s st.onlyIf),
        ("script", .arr (st.script.map .s))]

/-- The value installed at `travis_dict['jobs']`:
`{'include': [make_build_stage(df, tags) for df, tags in dockerfile_tags.items()]}`. -/
def jobsVal (m : List (String × List String)) : YVal :=
  .obj [("include", .arr (m.map (fun p => stageYVal (makeBuildStage p.1 p.2))))]

/-- `travis_yaml_add_stages(travis_dict, dockerfile_paths)` with the
artifacts already parsed from the dockerfiles: run the Builder, then
overwrite the `jobs` key with the generated stage list. -/
def travisYamlAddStages (doc : TravisDoc) (arts : List Artifact) : Except Unit TravisDoc := do
  let m ← buildTags arts
  pure (setKey doc "jobs" (jobsVal m))

/-- `path.split('/')[i]` with a default for out-of-range (the script always
indexes paths of the shape `repos/<repo>/<version>/stretch/Dockerfile`). -/
def slashPart (p : String) (i : Nat) : String :=
  (slashSplit p).getD i ""

/-- The Dockerfile paths `generate_dockerfiles` writes, one per element of
`itertools.product(python_dockerfiles, node_dockerfiles)`, in order. -/
def generatedDockerfilePaths (pyFiles nodeFiles : List String) : List String :=
  (pyFiles.map (fun py => nodeFiles.map (fun node =>
    "dockerfiles/" ++ slashPart py 2 ++ "-" ++ slashPart node 2
      ++ "/Dockerfile"))).flatten

/-- The externally-determined inputs of one run of `main()`: whether the
upstream fetches succeed, the discovered upstream Dockerfile paths, the
parse result of the pre-existing `.travis.yml`, and the artifacts parsed
from the generated dockerfiles by `update_travis_yaml`. -/
structure RunInput where
  fetchOk : Bool
  pyFiles : List String
  nodeFiles : List String
  travisDoc : Except Unit TravisDoc
  arts : List Artifact

/-- `main()` at phase granularity: `fetch_all_repos()` (nothing written on
failure), then `generate_dockerfiles()` (writes one Dockerfile per matrix
element), then `update_travis_yaml()` (parses `.travis.yml`, runs the
Builder, and rewrites `.travis.yml`).  Returns the list of files written,
in order, paired with the run's outcome. -/
def mainRun (inp : RunInput) : List String × Except Unit Unit :=
  if inp.fetchOk = false then ([], .error ())
  else
    let written := generatedDockerfilePaths inp.pyFiles inp.nodeFiles
    match inp.travisDoc with
    | .error e => (written, .error e)
    | .ok doc =>
        match travisYamlAddStages doc inp.arts with
        | .error e => (written, .error e)
        | .ok _ => (written ++ [".travis.yml"], .ok ())

-- Sanity checks of the embedding on concrete data.
example : stripVersion (some [3, 9, 1]) (-2) = "3" := by decide
example : stripVersion (some [3, 9, 1]) 0 = "3.9.1" := by decide
example : stripVersion (some [14]) (-1) = "" := by decide
example : stripVersion none (-1) = "" := by decide
example : stripVersion none 0 = "None" := by decide
example : tagKey ⟨"f", some [3, 9, 1], some [14, 2, 0]⟩ (-2) (-2) = "3-14" := by decide
example : offsetPairs =
    [(-2, -2), (-2, -1), (-2, 0), (-1, -2), (-1, -1), (-1, 0), (0, -2), (0, -1), (0, 0)] := by
  decide

/-! ## Order-theoretic facts about the sort comparison -/

theorem verListLt_irrefl (a : Ver) : verListLt a a = false := by
  induction a with
  | nil => rfl
  | cons x xs ih => simp [verListLt, ih]

theorem verListLt_asymm {a b : Ver} (h : verListLt a b = true) : verListLt b a = false := by
  induction a generalizing b with
  | nil =>
    cases b with
    | nil => simp [verListLt] at h
    | cons y ys => rfl
  | cons x xs ih =>
    cases b with
    | nil => simp [verListLt] at h
    | cons y ys =>
      simp [verListLt] at h ⊢
      rcases h with h | ⟨rfl, h⟩
      · exact ⟨by omega, fun hyx => by omega⟩
      · exact ⟨by omega, fun _ => ih h⟩

theorem verListLt_trans {a b c : Ver} (h1 : verListLt a b = true) (h2 : verListLt b c = true) :
    verListLt a c = true := by
  induction a generalizing b c with
  | nil =>
    cases c with
    | nil =>
      cases b with
      | nil => simp [verListLt] at h1
      | cons y ys => simp [verListLt] at h2
    | cons z zs => simp [verListLt]
  | cons x xs ih =>
    cases b with
    | nil => simp [verListLt] at h1
    | cons y ys =>
      cases c with
      | nil => simp [verListLt] at h2
      | cons z zs =>
        simp [verListLt] at h1 h2 ⊢
        rcases h1 with h1 | ⟨rfl, h1⟩ <;> rcases h2 with h2 | ⟨rfl, h2⟩
        · left; omega
        · left; omega
        · left; omega
        · right; exact ⟨rfl, ih h1 h2⟩

theorem verListLt_eq_of_not_lt {a b : Ver} (h1 : verListLt a b = false)
    (h2 : verListLt b a = false) : a = b := by
  induction a generalizing b with
  | nil =>
    cases b with
    | nil => rfl
    | cons y ys => simp [verListLt] at h1
  | cons x xs ih =>
    cases b with
    | nil => simp [verListLt] at h2
    | cons y ys =>
      simp [verListLt] at h1 h2
      obtain ⟨h1a, h1b⟩ := h1
      obtain ⟨h2a, h2b⟩ := h2
      have hxy : x = y := by omega
      subst hxy
      rw [ih (h1b rfl) (h2b rfl)]

theorem verPairLt_asymm {pa na pb nb : Ver} (h : verPairLt pa na pb nb = true) :
    verPairLt pb nb pa na = false := by
  unfold verPairLt at h ⊢
  by_cases he : releaseKey pa = releaseKey pb
  · rw [if_pos (by simp [he])] at h
    rw [if_pos (by simp [he])]
    exact verListLt_asymm h
  · rw [if_neg (by simp [he])] at h
    rw [if_neg (by simp only [beq_iff_eq]; exact fun hc => he hc.symm)]
    exact verListLt_asymm h

theorem verPairLt_trans {pa na pb nb pc nc : Ver} (h1 : verPairLt pa na pb nb = true)
    (h2 : verPairLt pb nb pc nc = true) : verPairLt pa na pc nc = true := by
  unfold verPairLt at h1 h2 ⊢
  by_cases e1 : releaseKey pa = releaseKey pb <;> by_cases e2 : releaseKey pb = releaseKey pc
  · rw [if_pos (by simp [e1])] at h1
    rw [if_pos (by simp [e2])] at h2
    rw [if_pos (by simp [e1.trans e2])]
    exact verListLt_trans h1 h2
  · rw [if_pos (by simp [e1])] at h1
    rw [if_neg (by simp [e2])] at h2
    rw [if_neg (by simp only [beq_iff_eq]; exact fun hc => e2 (e1.symm.trans hc))]
    rw [e1]
    exact h2
  · rw [if_neg (by simp [e1])] at h1
    rw [if_pos (by simp [e2])] at h2
    rw [if_neg (by simp only [beq_iff_eq]; exact fun hc => e1 (hc.trans e2.symm))]
    rw [← e2]
    exact h1
  · rw [if_neg (by simp [e1])] at h1
    rw [if_neg (by simp [e2])] at h2
    have hac : verListLt (releaseKey pa) (releaseKey pc) = true := verListLt_trans h1 h2
    rw [if_neg (by
      simp only [beq_iff_eq]
      intro hc
      rw [hc] at h1
      have := verListLt_asymm h2
      rw [h1] at this
      cases this)]
    exact hac

theorem artLtP_asymm {a b : Artifact} (h : artLtP a b = true) : artLtP b a = false := by
  obtain ⟨ap, apy, ano⟩ := a
  obtain ⟨bp, bpy, bno⟩ := b
  cases apy <;> cases bpy <;> cases ano <;> cases bno <;> simp only [artLtP] at h ⊢
  exact verPairLt_asymm h

theorem artLtP_irrefl (a : Artifact) : artLtP a a = false := by
  cases h : artLtP a a
  · rfl
  · have := artLtP_asymm h
    rw [h] at this
    cases this

theorem artLtP_trans {a b c : Artifact} (h1 : artLtP a b = true) (h2 : artLtP b c = true) :
    artLtP a c = true := by
  obtain ⟨ap, apy, ano⟩ := a
  obtain ⟨bp, bpy, bno⟩ := b
  obtain ⟨cp, cpy, cno⟩ := c
  cases apy <;> cases bpy <;> cases cpy <;> cases ano <;> cases bno <;> cases cno <;>
    simp only [artLtP] at h1 h2 ⊢ <;>
    first
    | exact verPairLt_trans h1 h2
    | exact Bool.noConfusion h1
    | exact Bool.noConfusion h2

/-! ## The sort: totality, permutation and sortedness -/

/-- Both versions present: the comparison returns (no `TypeError`). -/
theorem artLt_ok {a b : Artifact} (ha : a.python_version.isSome = true)
    (han : a.node_version.isSome = true) (hb : b.python_version.isSome = true)
    (hbn : b.node_version.isSome = true) : artLt a b = .ok (artLtP a b) := by
  obtain ⟨pa, hpa⟩ := Option.isSome_iff_exists.mp ha
  obtain ⟨na, hna⟩ := Option.isSome_iff_exists.mp han
  obtain ⟨pb, hpb⟩ := Option.isSome_iff_exists.mp hb
  obtain ⟨nb, hnb⟩ := Option.isSome_iff_exists.mp hbn
  simp only [artLt, artLtP, hpa, hna, hpb, hnb, pyEqOpt, pyLtOpt, verPairLt]
  by_cases e1 : releaseKey pa == releaseKey pb
  · simp only [if_pos e1]
    by_cases e2 : releaseKey na == releaseKey nb
    · simp only [if_pos e2]
      rw [beq_iff_eq] at e2
      rw [e2, verListLt_irrefl]
    · simp only [if_neg e2]
  · simp only [if_neg e1]

/-- A predicate for "both versions were parsed from the file". -/
def TotalArt (a : Artifact) : Prop :=
  a.python_version.isSome = true ∧ a.node_version.isSome = true

theorem insertP_mem {x y : Artifact} {l : List Artifact} (h : y ∈ insertP x l) :
    y = x ∨ y ∈ l := by
  induction l with
  | nil => simpa [insertP] using h
  | cons z zs ih =>
    simp only [insertP] at h
    by_cases hb : artLtP x z
    · rw [if_pos hb] at h
      simp only [List.mem_cons] at h
      rcases h with h | h | h
      · exact Or.inl h
      · exact Or.inr (by simp [h])
      · exact Or.inr (by simp [h])
    · rw [if_neg hb] at h
      simp only [List.mem_cons] at h
      rcases h with h | h
      · exact Or.inr (by simp [h])
      · rcases ih h with h' | h'
        · exact Or.inl h'
        · exact Or.inr (by simp [h'])

theorem insertSortedM_eq {x : Artifact} {l : List Artifact} (hx : TotalArt x)
    (hl : ∀ a ∈ l, TotalArt a) : insertSortedM x l = .ok (insertP x l) := by
  induction l with
  | nil => rfl
  | cons y ys ih =>
    have hy := hl y (by simp)
    have hys : ∀ a ∈ ys, TotalArt a := fun a ha => hl a (by simp [ha])
    rw [insertSortedM, insertP, artLt_ok hx.1 hx.2 hy.1 hy.2]
    by_cases hb : artLtP x y = true
    · rw [hb]
      rfl
    · rw [Bool.not_eq_true] at hb
      rw [hb, ih hys]
      rfl

theorem sortM_eq {l : List Artifact} (hl : ∀ a ∈ l, TotalArt a) :
    sortM l = .ok (pureSort l) := by
  have main : ∀ (rest acc : List Artifact), (∀ a ∈ rest, TotalArt a) →
      (∀ a ∈ acc, TotalArt a) →
      rest.foldlM (fun acc x => insertSortedM x acc) acc =
        .ok (rest.foldl (fun acc x => insertP x acc) acc) := by
    intro rest
    induction rest with
    | nil => intro acc _ _; rfl
    | cons x xs ih =>
      intro acc hrest hacc
      have hx : TotalArt x := hrest x (by simp)
      have hxs : ∀ a ∈ xs, TotalArt a := fun a ha => hrest a (by simp [ha])
      have hacc' : ∀ a ∈ insertP x acc, TotalArt a := by
        intro a ha
        rcases insertP_mem ha with rfl | h
        · exact hx
        · exact hacc a h
      simp only [List.foldlM, List.foldl, insertSortedM_eq hx hacc]
      exact ih (insertP x acc) hxs hacc'
  exact main l [] hl (by simp)

theorem insertP_perm (x : Artifact) (l : List Artifact) :
    List.Perm (insertP x l) (x :: l) := by
  induction l with
  | nil => exact List.Perm.refl _
  | cons y ys ih =>
    simp only [insertP]
    by_cases hb : artLtP x y
    · rw [if_pos hb]
    · rw [if_neg hb]
      exact (ih.cons y).trans (List.Perm.swap x y ys)

theorem pureSort_perm (l : List Artifact) : List.Perm (pureSort l) l := by
  have main : ∀ (rest acc : List Artifact),
      List.Perm (rest.foldl (fun acc x => insertP x acc) acc) (rest ++ acc) := by
    intro rest
    induction rest with
    | nil => intro acc; simp
    | cons x xs ih =>
      intro acc
      have h1 := ih (insertP x acc)
      have h2 : List.Perm (xs ++ insertP x acc) (xs ++ x :: acc) :=
        List.Perm.append_left xs (insertP_perm x acc)
      have h3 : List.Perm (xs ++ x :: acc) (x :: (xs ++ acc)) := List.perm_middle
      exact (h1.trans h2).trans h3
  simpa using main l []

/-- Ascending sortedness with respect to the sort's comparison: no later
element is strictly below an earlier one. -/
def SortedAsc (l : List Artifact) : Prop :=
  l.Pairwise (fun a b => artLtP b a = false)

theorem insertP_sorted {x : Artifact} {l : List Artifact} (h : SortedAsc l) :
    SortedAsc (insertP x l) := by
  induction l with
  | nil => simp [SortedAsc, insertP]
  | cons y ys ih =>
    rw [SortedAsc, List.pairwise_cons] at h
    obtain ⟨hy, hys⟩ := h
    simp only [insertP]
    by_cases hb : artLtP x y
    · rw [if_pos hb]
      rw [SortedAsc, List.pairwise_cons]
      constructor
      · intro b hbmem
        simp only [List.mem_cons] at hbmem
        rcases hbmem with rfl | hbmem
        · exact artLtP_asymm hb
        · cases hc : artLtP b x
          · rfl
          · have hby : artLtP b y = true := artLtP_trans hc hb
            rw [hy b hbmem] at hby
            cases hby
      · rw [List.pairwise_cons]
        exact ⟨hy, hys⟩
    · rw [if_neg hb]
      rw [SortedAsc, List.pairwise_cons]
      constructor
      · intro b hbmem
        rcases insertP_mem hbmem with rfl | hbmem
        · simpa using hb
        · exact hy b hbmem
      · exact ih hys

theorem pureSort_sorted (l : List Artifact) : SortedAsc (pureSort l) := by
  have main : ∀ (rest acc : List Artifact), SortedAsc acc →
      SortedAsc (rest.foldl (fun acc x => insertP x acc) acc) := by
    intro rest
    induction rest with
    | nil => intro acc h; exact h
    | cons x xs ih =>
      intro acc h
      exact ih (insertP x acc) (insertP_sorted h)
  exact main l [] (by simp [SortedAsc])

/-! ## `group_by_version`: first-seen-wins characterization -/

/-- `df` is recorded for TagKey `k` in one `group_by_version` pass over
`rev` exactly when some artifact with path `df` produces `k` and no earlier
artifact of `rev` produces `k` (first-seen-wins over the iteration order). -/
def IsFirstForKey (rev : List Artifact) (po no : Int) (k df : String) : Prop :=
  ∃ l₁ a l₂, rev = l₁ ++ a :: l₂ ∧ tagKey a po no = k ∧ a.dockerfile_path = df ∧
    ∀ b ∈ l₁, tagKey b po no ≠ k

theorem groupGo_mem {po no : Int} {seen : List String} {l : List Artifact} {k df : String}
    (h : (k, df) ∈ groupGo po no seen l) :
    k ∉ seen ∧ ∃ l₁ a l₂, l = l₁ ++ a :: l₂ ∧ tagKey a po no = k ∧
      a.dockerfile_path = df ∧ ∀ b ∈ l₁, tagKey b po no ≠ k := by
  induction l generalizing seen with
  | nil => simp [groupGo] at h
  | cons x rest ih =>
    by_cases hx : tagKey x po no ∈ seen
    · rw [groupGo, if_pos hx] at h
      obtain ⟨hks, l₁, a, l₂, rfl, hk, hdf, hpre⟩ := ih h
      refine ⟨hks, x :: l₁, a, l₂, rfl, hk, hdf, ?_⟩
      intro b hb
      simp only [List.mem_cons] at hb
      rcases hb with rfl | hb
      · exact fun hc => hks (hc ▸ hx)
      · exact hpre b hb
    · rw [groupGo, if_neg hx] at h
      simp only [List.mem_cons] at h
      rcases h with h | h
      · obtain ⟨hk, hdf⟩ := Prod.mk.injEq .. ▸ h
        exact ⟨hk ▸ hx, [], x, rest, rfl, hk.symm, hdf.symm, by simp⟩
      · obtain ⟨hks, l₁, a, l₂, rfl, hk, hdf, hpre⟩ := ih h
        have hknot : k ∉ seen := fun hc => hks (List.mem_cons_of_mem _ hc)
        have hne : tagKey x po no ≠ k := fun hc => hks (hc ▸ List.mem_cons_self _ _)
        refine ⟨hknot, x :: l₁, a, l₂, rfl, hk, hdf, ?_⟩
        intro b hb
        simp only [List.mem_cons] at hb
        rcases hb with rfl | hb
        · exact hne
        · exact hpre b hb

theorem groupGo_mem_of_first {po no : Int} {seen : List String} {l₁ l₂ : List Artifact}
    {a : Artifact} (hseen : tagKey a po no ∉ seen)
    (hpre : ∀ b ∈ l₁, tagKey b po no ≠ tagKey a po no) :
    (tagKey a po no, a.dockerfile_path) ∈ groupGo po no seen (l₁ ++ a :: l₂) := by
  induction l₁ generalizing seen with
  | nil =>
    rw [List.nil_append, groupGo, if_neg hseen]
    exact List.mem_cons_self _ _
  | cons x xs ih =>
    have hxs : ∀ b ∈ xs, tagKey b po no ≠ tagKey a po no :=
      fun b hb => hpre b (List.mem_cons_of_mem _ hb)
    rw [List.cons_append]
    by_cases hx : tagKey x po no ∈ seen
    · rw [groupGo, if_pos hx]
      exact ih hseen hxs
    · rw [groupGo, if_neg hx]
      refine List.mem_cons_of_mem _ (ih ?_ hxs)
      intro hc
      simp only [List.mem_cons] at hc
      rcases hc with hc | hc
      · exact hpre x (List.mem_cons_self _ _) hc.symm
      · exact hseen hc

/-- Membership in one `group_by_version` pass is exactly the
first-seen-wins condition. -/
theorem groupByVersion_mem_iff {rev : List Artifact} {po no : Int} {k df : String} :
    (k, df) ∈ groupByVersion rev po no ↔ IsFirstForKey rev po no k df := by
  constructor
  · intro h
    exact (groupGo_mem h).2
  · rintro ⟨l₁, a, l₂, rfl, hk, hdf, hpre⟩
    have := @groupGo_mem_of_first po no [] l₁ l₂ a (by simp) (fun b hb => hk ▸ hpre b hb)
    rw [hk, hdf] at this
    exact this

theorem groupGo_keys_notin_seen {po no : Int} {seen : List String} {l : List Artifact}
    {k : String} (h : k ∈ (groupGo po no seen l).map Prod.fst) : k ∉ seen := by
  simp only [List.mem_map] at h
  obtain ⟨p, hp, rfl⟩ := h
  obtain ⟨p1, p2⟩ := p
  exact (groupGo_mem hp).1

theorem groupGo_keys_nodup (po no : Int) (seen : List String) (l : List Artifact) :
    ((groupGo po no seen l).map Prod.fst).Nodup := by
  induction l generalizing seen with
  | nil => simp [groupGo]
  | cons x rest ih =>
    by_cases hx : tagKey x po no ∈ seen
    · rw [groupGo, if_pos hx]
      exact ih seen
    · rw [groupGo, if_neg hx]
      simp only [List.map_cons, List.nodup_cons]
      refine ⟨?_, ih _⟩
      intro hc
      exact groupGo_keys_notin_seen hc (List.mem_cons_self _ _)

/-! ## The `dockerfile_tags` accumulation loop -/

theorem lookupKey_map_set_self (m : List (String × List String)) (df tag : String)
    (hAny : m.any (fun p => p.1 == df) = true) :
    lookupKey (m.map (fun p => if p.1 = df then (p.1, p.2 ++ [tag]) else p)) df =
      some (((lookupKey m df).getD []) ++ [tag]) := by
  induction m with
  | nil => simp at hAny
  | cons p ps ih =>
    by_cases hp : p.1 = df
    · simp only [List.map_cons, if_pos hp, lookupKey, hp, if_pos rfl]
      simp
    · have hAny' : ps.any (fun p => p.1 == df) = true := by
        simpa [List.any_cons, hp] using hAny
      simp only [List.map_cons, if_neg hp, lookupKey, if_neg hp]
      exact ih hAny'

theorem lookupKey_map_set_other (m : List (String × List String)) (df tag k : String)
    (hk : k ≠ df) :
    lookupKey (m.map (fun p => if p.1 = df then (p.1, p.2 ++ [tag]) else p)) k =
      lookupKey m k := by
  induction m with
  | nil => rfl
  | cons p ps ih =>
    by_cases hp : p.1 = df
    · have hpk : p.1 ≠ k := fun hc => hk (hc ▸ hp ▸ rfl)
      simp only [List.map_cons, if_pos hp, lookupKey, if_neg hpk]
      exact ih
    · by_cases hpk : p.1 = k
      · simp only [List.map_cons, if_neg hp, lookupKey, if_pos hpk]
      · simp only [List.map_cons, if_neg hp, lookupKey, if_neg hpk]
        exact ih

theorem lookupKey_eq_none_of_any_false {α : Type} (m : List (String × α)) (df : String)
    (h : m.any (fun p => p.1 == df) = false) : lookupKey m df = none := by
  induction m with
  | nil => rfl
  | cons p ps ih =>
    simp only [List.any_cons, Bool.or_eq_false_iff] at h
    have hp : p.1 ≠ df := by
      intro hc
      have h1 := h.1
      rw [hc] at h1
      simp at h1
    rw [lookupKey, if_neg hp]
    exact ih h.2

theorem lookupKey_append_of_none {α : Type} {m₁ : List (String × α)} {k : String}
    (h : lookupKey m₁ k = none) (m₂ : List (String × α)) :
    lookupKey (m₁ ++ m₂) k = lookupKey m₂ k := by
  induction m₁ with
  | nil => rfl
  | cons p ps ih =>
    by_cases hp : p.1 = k
    · rw [lookupKey, if_pos hp] at h
      cases h
    · rw [lookupKey, if_neg hp] at h
      rw [List.cons_append, lookupKey, if_neg hp]
      exact ih h

theorem lookupKey_append_single_other {α : Type} (m : List (String × α)) (k df : String)
    (v : α) (hk : k ≠ df) : lookupKey (m ++ [(df, v)]) k = lookupKey m k := by
  induction m with
  | nil =>
    have hne : ¬((df, v).1 = k) := fun hc => hk hc.symm
    simp [lookupKey, hne]
  | cons p ps ih =>
    by_cases hp : p.1 = k
    · rw [List.cons_append, lookupKey, if_pos hp, lookupKey, if_pos hp]
    · rw [List.cons_append, lookupKey, if_neg hp, lookupKey, if_neg hp]
      exact ih

theorem lookupKey_addTag (m : List (String × List String)) (df tag k : String) :
    lookupKey (addTag m df tag) k =
      if k = df then some (((lookupKey m df).getD []) ++ [tag]) else lookupKey m k := by
  unfold addTag
  by_cases hAny : m.any (fun p => p.1 == df) = true
  · rw [if_pos hAny]
    by_cases hk : k = df
    · rw [if_pos hk, hk]
      exact lookupKey_map_set_self m df tag hAny
    · rw [if_neg hk]
      exact lookupKey_map_set_other m df tag k hk
  · rw [Bool.not_eq_true] at hAny
    simp only [hAny, Bool.false_eq_true, if_false]
    have hnone := lookupKey_eq_none_of_any_false m df hAny
    by_cases hk : k = df
    · rw [if_pos hk, hk, hnone]
      rw [lookupKey_append_of_none (hk ▸ hnone) [(df, [tag])]]
      simp [lookupKey]
    · rw [if_neg hk]
      exact lookupKey_append_single_other m k df [tag] hk

theorem lookupKey_foldTags (ps : List (String × String)) :
    ∀ (m : List (String × List String)) (df : String),
      lookupKey (ps.foldl (fun m p => addTag m p.2 p.1) m) df =
        match lookupKey m df with
        | some ts => some (ts ++ (ps.filter (fun p => p.2 == df)).map Prod.fst)
        | none =>
            if ps.any (fun p => p.2 == df) then
              some ((ps.filter (fun p => p.2 == df)).map Prod.fst)
            else none := by
  induction ps with
  | nil =>
    intro m df
    cases h : lookupKey m df <;> simp [h]
  | cons q qs ih =>
    intro m df
    rw [List.foldl_cons, ih (addTag m q.2 q.1) df, lookupKey_addTag]
    by_cases hq : df = q.2
    · rw [if_pos hq]
      have hq2 : (q.2 == df) = true := by simp [hq]
      cases h : lookupKey m df with
      | some ts =>
          have h2 : lookupKey m q.2 = some ts := hq ▸ h
          simp [h, h2, List.filter_cons, hq2, List.append_assoc]
      | none =>
          have h2 : lookupKey m q.2 = none := hq ▸ h
          simp [h, h2, List.filter_cons, List.any_cons, hq2]
    · rw [if_neg hq]
      have hq' : (q.2 == df) = false := by
        simp only [beq_eq_false_iff_ne, ne_eq]
        exact fun hc => hq hc.symm
      cases h : lookupKey m df <;>
        by_cases hA : qs.any (fun p => p.2 == df) = true <;>
          simp [h, hq', hA, List.filter_cons, List.any_cons]

/-! ## Claim theorems -/

/-- C3: for every version string and offset, `strip_version` with offset 0
returns the full, untruncated version string (the `str` of the version),
and with a negative offset `n` returns the first `len(parts) + n`
dot-separated components joined by dots. -/
theorem c3_strip_version_offset_semantics (ov : Option Ver) (n : Int) :
    (n = 0 → stripVersion ov n = versionStr ov) ∧
    (n < 0 → stripVersion ov n =
      String.intercalate "."
        ((versionParts ov).take (((versionParts ov).length : Int) + n).toNat)) := by
  constructor
  · rintro rfl
    rw [stripVersion, if_pos rfl]
    cases ov <;> rfl
  · intro hn
    rw [stripVersion, if_neg (by omega), pySlice, if_pos hn]

theorem c3_witness :
    stripVersion (some [3, 9, 1]) 0 = versionStr (some [3, 9, 1]) ∧
    stripVersion (some [14, 2, 0]) (-1) =
      String.intercalate "."
        ((versionParts (some [14, 2, 0])).take
          (((versionParts (some [14, 2, 0])).length : Int) + (-1)).toNat) :=
  ⟨(c3_strip_version_offset_semantics (some [3, 9, 1]) 0).1 rfl,
   (c3_strip_version_offset_semantics (some [14, 2, 0]) (-1)).2 (by decide)⟩

/-- C10: a negative offset `n` with `len(parts) + n ≤ 0` truncates to the
empty string, so a one-component version yields the same TagKey side under
offsets `-1` and `-2`, two distinct offset pairs can produce the identical
TagKey for one artifact, and output TagKeys can have an empty side such as
`"3-"`. -/
theorem c10_empty_truncation_and_collisions :
    (∀ (ov : Option Ver) (n : Int), n < 0 → ((versionParts ov).length : Int) + n ≤ 0 →
        stripVersion ov n = "") ∧
    stripVersion (some [14]) (-1) = "" ∧
    stripVersion (some [14]) (-2) = "" ∧
    tagKey ⟨"f", some [3, 9, 1], some [14]⟩ (-2) (-2) =
      tagKey ⟨"f", some [3, 9, 1], some [14]⟩ (-2) (-1) ∧
    tagKey ⟨"f", some [3, 9, 1], some [14]⟩ (-2) (-2) = "3-" ∧
    "3-" ∈ ((lookupKey (dockerfileTags [⟨"f", some [3, 9, 1], some [14]⟩]) "f").getD []) ∧
    buildTags [⟨"f", some [3, 9, 1], some [14]⟩] =
      .ok (dockerfileTags [⟨"f", some [3, 9, 1], some [14]⟩]) := by
  refine ⟨?_, by decide, by decide, by decide, by decide, by decide, rfl⟩
  intro ov n h1 h2
  rw [stripVersion, if_neg (by omega), pySlice, if_pos h1]
  have hz : (((versionParts ov).length : Int) + n).toNat = 0 := by omega
  rw [hz]
  rfl

theorem c10_witness : stripVersion (some [5, 6]) (-2) = "" :=
  c10_empty_truncation_and_collisions.1 (some [5, 6]) (-2) (by decide) (by decide)

/-- C2 counterexample: the accumulation loop appends a TagKey with no
membership check, so the artifact `(python 3.9.1, node 14)` receives the
TagKey `"3-"` twice (once for offset pair `(-2,-2)` and once for
`(-2,-1)`): the claimed "each TagKey at most once" is false. -/
theorem c2_counterexample_duplicate_tag :
    buildTags [⟨"f", some [3, 9, 1], some [14]⟩] =
      .ok [("f", ["3-", "3-", "3-14", "3.9-", "3.9-", "3.9-14",
                  "3.9.1-", "3.9.1-", "3.9.1-14"])] ∧
    (["3-", "3-", "3-14", "3.9-", "3.9-", "3.9-14", "3.9.1-", "3.9.1-", "3.9.1-14"] :
        List String).count "3-" = 2 :=
  ⟨rfl, by decide⟩

/-- C2 (amended): each file's tag list is exactly the sequence of TagKeys,
over the nine offset pairs in Cartesian-product order, for which the file
was recorded as representative — with one occurrence per winning offset
pair (so a TagKey can repeat across offset pairs); within a single offset
pair the group map never repeats a TagKey. -/
theorem c2_amended_tag_list_exact (rev : List Artifact) (df : String) (ts : List String)
    (h : lookupKey (dockerfileTags rev) df = some ts) :
    ts = ((tagPairs rev).filter (fun p => p.2 == df)).map Prod.fst ∧
    ∀ po no : Int, ((groupByVersion rev po no).map Prod.fst).Nodup := by
  refine ⟨?_, fun po no => groupGo_keys_nodup po no [] rev⟩
  rw [dockerfileTags, lookupKey_foldTags (tagPairs rev) [] df] at h
  simp only [lookupKey] at h
  by_cases hA : (tagPairs rev).any (fun p => p.2 == df) = true
  · rw [if_pos hA] at h
    exact (Option.some.inj h).symm
  · rw [if_neg hA] at h
    cases h

theorem c2_amended_witness :
    ["3-", "3-", "3-14", "3.9-", "3.9-", "3.9-14", "3.9.1-", "3.9.1-", "3.9.1-14"] =
      ((tagPairs [⟨"f", some [3, 9, 1], some [14]⟩]).filter
        (fun p => p.2 == "f")).map Prod.fst :=
  (c2_amended_tag_list_exact [⟨"f", some [3, 9, 1], some [14]⟩] "f"
    ["3-", "3-", "3-14", "3.9-", "3.9-", "3.9-14", "3.9.1-", "3.9.1-", "3.9.1-14"]
    (by decide)).1

/-- C4 counterexample: with two artifacts whose python versions are equal
and one node version absent, the sort compares a `Version` with `None`,
which raises `TypeError`: the Builder fails instead of processing the
null-version artifact. -/
theorem c4_counterexample_typeerror :
    buildTags [⟨"a", some [3, 9, 1], some [14, 2, 0]⟩, ⟨"b", some [3, 9, 1], none⟩] =
      .error () := rfl

/-- C4 (amended): a null-version artifact still participates — with its
TagKeys using the string form `"None"` — only when the sort never compares
the absent version against a present one (for instance a single-artifact
set); when such a comparison happens the Builder raises `TypeError`. -/
theorem c4_amended_null_version_behavior :
    buildTags [⟨"f", some [3, 9, 1], none⟩] =
      .ok [("f", ["3-", "3-", "3-None", "3.9-", "3.9-", "3.9-None",
                  "3.9.1-", "3.9.1-", "3.9.1-None"])] ∧
    "3.9.1-None" ∈ ["3-", "3-", "3-None", "3.9-", "3.9-", "3.9-None",
                    "3.9.1-", "3.9.1-", "3.9.1-None"] ∧
    artLt ⟨"b", some [3, 9, 1], none⟩ ⟨"a", some [3, 9, 1], some [14, 2, 0]⟩ = .error () :=
  ⟨rfl, by decide, rfl⟩

/-- C5: for A = (python 3.9.1, node 14.2.0) and B = (python 3.9.1, node
14.15.0), under offset pair (0,0) the keys "3.9.1-14.2.0" and
"3.9.1-14.15.0" map to A and B respectively; under (-2,-2) both truncate
to the single key "3-14" whose sole representative is B; and A's file does
not receive the tag "3-14". -/
theorem c5_worked_example :
    groupByVersion (pureSort [⟨"a", some [3, 9, 1], some [14, 2, 0]⟩,
        ⟨"b", some [3, 9, 1], some [14, 15, 0]⟩]).reverse 0 0 =
      [("3.9.1-14.15.0", "b"), ("3.9.1-14.2.0", "a")] ∧
    groupByVersion (pureSort [⟨"a", some [3, 9, 1], some [14, 2, 0]⟩,
        ⟨"b", some [3, 9, 1], some [14, 15, 0]⟩]).reverse (-2) (-2) =
      [("3-14", "b")] ∧
    buildTags [⟨"a", some [3, 9, 1], some [14, 2, 0]⟩,
        ⟨"b", some [3, 9, 1], some [14, 15, 0]⟩] =
      .ok [("b", ["3-14", "3-14.15", "3-14.15.0", "3.9-14", "3.9-14.15", "3.9-14.15.0",
                  "3.9.1-14", "3.9.1-14.15", "3.9.1-14.15.0"]),
           ("a", ["3-14.2", "3-14.2.0", "3.9-14.2", "3.9-14.2.0",
                  "3.9.1-14.2", "3.9.1-14.2.0"])] ∧
    "3-14" ∉ ["3-14.2", "3-14.2.0", "3.9-14.2", "3.9-14.2.0",
              "3.9.1-14.2", "3.9.1-14.2.0"] :=
  ⟨by decide, by decide, rfl, by decide⟩

/-- The fields of an artifact, as read during discovery. -/
def artifactFields (a : Artifact) : String × Option Ver × Option Ver :=
  (a.dockerfile_path, a.python_version, a.node_version)

/-- C9: the Builder is deterministic — two runs over artifact lists that
agree element-wise on path and parsed versions (same discovery order)
produce identical file-to-tags mappings, key order and tag order included. -/
theorem c9_builder_deterministic (arts1 arts2 : List Artifact)
    (h : arts1.map artifactFields = arts2.map artifactFields) :
    buildTags arts1 = buildTags arts2 := by
  have hinj : Function.Injective artifactFields := by
    intro a b hab
    obtain ⟨ap, apy, ano⟩ := a
    obtain ⟨bp, bpy, bno⟩ := b
    simp only [artifactFields, Prod.mk.injEq] at hab
    simp [hab.1, hab.2.1, hab.2.2]
  rw [List.map_injective_iff.mpr hinj h]

theorem c9_witness :
    buildTags [⟨"a", some [3, 9, 1], some [14, 2, 0]⟩] =
      buildTags [⟨"a", some [3, 9, 1], some [14, 2, 0]⟩] :=
  c9_builder_deterministic _ _ rfl

instance (a : Artifact) : Decidable (TotalArt a) :=
  inferInstanceAs (Decidable (_ ∧ _))

/-- C1: for totally-versioned artifact sets the Builder succeeds; the list
it iterates is the descending `(python_version, node_version)` permutation
of the input; a file path is a key of the output mapping iff for at least
one of the 9 offset pairs it is the first artifact in that descending
order to produce some TagKey; and the representative recorded for a TagKey
under an offset pair is an artifact whose full version combination is not
below that of any other artifact truncating to the same TagKey. -/
theorem c1_representative_selection (arts : List Artifact)
    (h : ∀ a ∈ arts, TotalArt a) :
    buildTags arts = .ok (dockerfileTags ((pureSort arts).reverse)) ∧
    List.Perm ((pureSort arts).reverse) arts ∧
    ((pureSort arts).reverse).Pairwise (fun a b => artLtP a b = false) ∧
    (∀ df : String,
      (lookupKey (dockerfileTags ((pureSort arts).reverse)) df).isSome = true ↔
        ∃ t ∈ offsetPairs, ∃ k,
          IsFirstForKey ((pureSort arts).reverse) t.1 t.2 k df) ∧
    (∀ (po no : Int) (k df : String),
      (k, df) ∈ groupByVersion ((pureSort arts).reverse) po no →
        ∃ a ∈ arts, a.dockerfile_path = df ∧ tagKey a po no = k ∧
          ∀ b ∈ arts, tagKey b po no = k → artLtP a b = false) := by
  have hsorted := pureSort_sorted arts
  rw [SortedAsc] at hsorted
  have hpair : ((pureSort arts).reverse).Pairwise (fun a b => artLtP a b = false) :=
    List.pairwise_reverse.mpr hsorted
  have hperm : List.Perm ((pureSort arts).reverse) arts :=
    (List.reverse_perm (pureSort arts)).trans (pureSort_perm arts)
  refine ⟨?_, hperm, hpair, ?_, ?_⟩
  · unfold buildTags
    rw [sortM_eq h]
    rfl
  · intro df
    rw [dockerfileTags, lookupKey_foldTags (tagPairs ((pureSort arts).reverse)) [] df]
    simp only [lookupKey]
    constructor
    · intro hi
      have hA : (tagPairs ((pureSort arts).reverse)).any (fun p => p.2 == df) = true := by
        by_cases hA : (tagPairs ((pureSort arts).reverse)).any (fun p => p.2 == df) = true
        · exact hA
        · rw [if_neg hA] at hi
          simp at hi
      rw [List.any_eq_true] at hA
      obtain ⟨p, hp, hpdf⟩ := hA
      rw [beq_iff_eq] at hpdf
      obtain ⟨L, hL, hpL⟩ := List.mem_flatten.mp hp
      obtain ⟨t, ht, rfl⟩ := List.mem_map.mp hL
      refine ⟨t, ht, p.1, groupByVersion_mem_iff.mp ?_⟩
      rw [← hpdf]
      simpa using hpL
    · rintro ⟨t, ht, k, hfirst⟩
      have hmem : (k, df) ∈ groupByVersion ((pureSort arts).reverse) t.1 t.2 :=
        groupByVersion_mem_iff.mpr hfirst
      have hpairmem : (k, df) ∈ tagPairs ((pureSort arts).reverse) :=
        List.mem_flatten.mpr
          ⟨groupByVersion ((pureSort arts).reverse) t.1 t.2,
            List.mem_map.mpr ⟨t, ht, rfl⟩, hmem⟩
      have hA : (tagPairs ((pureSort arts).reverse)).any (fun p => p.2 == df) = true :=
        List.any_eq_true.mpr ⟨(k, df), hpairmem, by simp⟩
      rw [if_pos hA]
      rfl
  · intro po no k df hmem
    obtain ⟨l₁, a, l₂, hrev, hk, hdf, hpre⟩ := groupByVersion_mem_iff.mp hmem
    have haarts : a ∈ arts := hperm.mem_iff.mp
      (by rw [hrev]; exact List.mem_append_right _ (List.mem_cons_self _ _))
    refine ⟨a, haarts, hdf, hk, ?_⟩
    intro b hbarts hbk
    have hbrev : b ∈ (pureSort arts).reverse := hperm.mem_iff.mpr hbarts
    rw [hrev] at hbrev
    rcases List.mem_append.mp hbrev with hb1 | hb2
    · exact absurd hbk (hpre b hb1)
    · rcases List.mem_cons.mp hb2 with rfl | hb2
      · exact artLtP_irrefl _
      · have hpw := hpair
        rw [hrev] at hpw
        have hcons := (List.pairwise_append.mp hpw).2.1
        rw [List.pairwise_cons] at hcons
        exact hcons.1 b hb2

theorem c1_witness :
    buildTags [⟨"a", some [3, 9, 1], some [14, 2, 0]⟩,
        ⟨"b", some [3, 9, 1], some [14, 15, 0]⟩] =
      .ok (dockerfileTags ((pureSort [⟨"a", some [3, 9, 1], some [14, 2, 0]⟩,
        ⟨"b", some [3, 9, 1], some [14, 15, 0]⟩]).reverse)) :=
  (c1_representative_selection _ (by decide)).1

/-- C6: for every file path and non-empty tag list of length n, the stage
record has the comma-joined display name, the cron-skipping condition, and
a script of `set -e`, login, a comment, exactly one build command
targeting the file's parent directory, then exactly n tag-apply lines and
then exactly n conditional push lines, in tag-list order (the i-th tag and
push lines carry the i-th tag). -/
theorem c6_stage_record_shape (p : String) (tags : List String) (_hne : tags ≠ []) :
    (makeBuildStage p tags).name = String.intercalate ", " tags ∧
    (makeBuildStage p tags).onlyIf = "type NOT IN (cron)" ∧
    (makeBuildStage p tags).script =
      ["set -e", loginLine, "# run tests", buildLine p]
        ++ tags.map tagLine ++ tags.map pushLine ∧
    (makeBuildStage p tags).script.length = 4 + tags.length + tags.length ∧
    (∀ (i : Nat) (t : String), tags[i]? = some t →
      (makeBuildStage p tags).script[4 + i]? = some (tagLine t) ∧
      (makeBuildStage p tags).script[4 + tags.length + i]? = some (pushLine t)) := by
  refine ⟨rfl, rfl, rfl, by simp [makeBuildStage]; omega, ?_⟩
  intro i t ht
  obtain ⟨hi, -⟩ := List.getElem?_eq_some.mp ht
  have hm1 : (tags.map tagLine)[i]? = some (tagLine t) := by
    rw [List.getElem?_map, ht]
    rfl
  have hm2 : (tags.map pushLine)[i]? = some (pushLine t) := by
    rw [List.getElem?_map, ht]
    rfl
  constructor
  · show ((["set -e", loginLine, "# run tests", buildLine p] ++ tags.map tagLine)
      ++ tags.map pushLine)[4 + i]? = some (tagLine t)
    rw [List.getElem?_append_left (by simp; omega),
      List.getElem?_append_right (by simp)]
    simpa using hm1
  · show ((["set -e", loginLine, "# run tests", buildLine p] ++ tags.map tagLine)
      ++ tags.map pushLine)[4 + tags.length + i]? = some (pushLine t)
    rw [List.getElem?_append_right (by simp; omega)]
    have : 4 + tags.length + i -
        (["set -e", loginLine, "# run tests", buildLine p] ++ tags.map tagLine).length = i := by
      simp
      omega
    rw [this]
    exact hm2

theorem c6_witness :
    (makeBuildStage "dockerfiles/3.9-14/Dockerfile" ["3.9-14", "3.9.1-14.2.0"]).script =
      ["set -e", loginLine, "# run tests", buildLine "dockerfiles/3.9-14/Dockerfile"]
        ++ ["3.9-14", "3.9.1-14.2.0"].map tagLine
        ++ ["3.9-14", "3.9.1-14.2.0"].map pushLine :=
  (c6_stage_record_shape "dockerfiles/3.9-14/Dockerfile" ["3.9-14", "3.9.1-14.2.0"]
    (by decide)).2.2.1

theorem setKey_filter (d : TravisDoc) (k : String) (v : YVal) :
    (setKey d k v).filter (fun p => p.1 != k) = d.filter (fun p => p.1 != k) := by
  unfold setKey
  by_cases hAny : d.any (fun p => p.1 == k) = true
  · rw [if_pos hAny]
    clear hAny
    induction d with
    | nil => rfl
    | cons p ps ih =>
      by_cases hp : p.1 = k
      · have hne : (p.1 != k) = false := by simp [hp]
        simp only [List.map_cons, if_pos hp, List.filter_cons, hne]
        simpa using ih
      · have hne : (p.1 != k) = true := by simp [hp]
        simp only [List.map_cons, if_neg hp, List.filter_cons, hne]
        simpa using ih
  · rw [if_neg hAny, List.filter_append]
    simp

theorem lookupKey_setMap_self (d : TravisDoc) (k : String) (v : YVal)
    (hAny : d.any (fun p => p.1 == k) = true) :
    lookupKey (d.map (fun p => if p.1 = k then (p.1, v) else p)) k = some v := by
  induction d with
  | nil => simp at hAny
  | cons p ps ih =>
    by_cases hp : p.1 = k
    · simp only [List.map_cons, if_pos hp, lookupKey]
    · have hAny' : ps.any (fun p => p.1 == k) = true := by
        simpa [List.any_cons, hp] using hAny
      simp only [List.map_cons, if_neg hp, lookupKey, if_neg hp]
      exact ih hAny'

theorem lookupKey_setKey_self (d : TravisDoc) (k : String) (v : YVal) :
    lookupKey (setKey d k v) k = some v := by
  unfold setKey
  by_cases hAny : d.any (fun p => p.1 == k) = true
  · rw [if_pos hAny]
    exact lookupKey_setMap_self d k v hAny
  · rw [if_neg hAny]
    rw [Bool.not_eq_true] at hAny
    rw [lookupKey_append_of_none (lookupKey_eq_none_of_any_false d k hAny)]
    simp [lookupKey]

/-- C7: the Emitter replaces exactly the `jobs` section of the pre-existing
document with the generated stage list (one stage per mapping entry, in
mapping order), and every entry of the document other than `jobs` —
including its order — is left unchanged. -/
theorem c7_jobs_replacement_frame (doc : TravisDoc) (arts : List Artifact)
    (m : List (String × List String)) (h : buildTags arts = .ok m) :
    travisYamlAddStages doc arts = .ok (setKey doc "jobs" (jobsVal m)) ∧
    (setKey doc "jobs" (jobsVal m)).filter (fun p => p.1 != "jobs") =
      doc.filter (fun p => p.1 != "jobs") ∧
    lookupKey (setKey doc "jobs" (jobsVal m)) "jobs" = some (jobsVal m) := by
  refine ⟨?_, setKey_filter doc "jobs" (jobsVal m), lookupKey_setKey_self doc "jobs" (jobsVal m)⟩
  unfold travisYamlAddStages
  rw [h]
  rfl

theorem c7_witness :
    travisYamlAddStages [("language", YVal.s "minimal")]
        [⟨"a", some [3, 9, 1], some [14, 2, 0]⟩] =
      .ok (setKey [("language", YVal.s "minimal")] "jobs"
        (jobsVal [("a", ["3-14", "3-14.2", "3-14.2.0", "3.9-14", "3.9-14.2", "3.9-14.2.0",
                          "3.9.1-14", "3.9.1-14.2", "3.9.1-14.2.0"])])) :=
  (c7_jobs_replacement_frame [("language", YVal.s "minimal")]
    [⟨"a", some [3, 9, 1], some [14, 2, 0]⟩]
    [("a", ["3-14", "3-14.2", "3-14.2.0", "3.9-14", "3.9-14.2", "3.9-14.2.0",
            "3.9.1-14", "3.9.1-14.2", "3.9.1-14.2.0"])] rfl).1

/-- C8 counterexample: a run whose upstream fetch succeeds but whose
`.travis.yml` fails to parse aborts only after `generate_dockerfiles` has
already written the matrix Dockerfiles — the run fails partway with
generated output on disk, contradicting "aborts having written no output
at all". -/
theorem c8_counterexample_partial_output :
    mainRun ⟨true, ["repos/python-abc/3.9/stretch/Dockerfile"],
      ["repos/docker-node-abc/14/stretch/Dockerfile"], .error (), []⟩ =
      (["dockerfiles/3.9-14/Dockerfile"], .error ()) ∧
    (["dockerfiles/3.9-14/Dockerfile"] : List String) ≠ [] :=
  ⟨rfl, by decide⟩

/-- C8 (amended): an abort before dockerfile generation (upstream fetch
failure) writes nothing; an abort during the final `.travis.yml` step
(parse failure, or a failing version comparison in the Builder) leaves
exactly the generated matrix Dockerfiles written; a fully successful run
writes the matrix Dockerfiles and then `.travis.yml`. -/
theorem c8_amended_phase_aborts (inp : RunInput) :
    (inp.fetchOk = false → mainRun inp = ([], .error ())) ∧
    (inp.fetchOk = true → inp.travisDoc = .error () →
      mainRun inp = (generatedDockerfilePaths inp.pyFiles inp.nodeFiles, .error ())) ∧
    (∀ doc m, inp.fetchOk = true → inp.travisDoc = .ok doc →
      buildTags inp.arts = .ok m →
      mainRun inp =
        (generatedDockerfilePaths inp.pyFiles inp.nodeFiles ++ [".travis.yml"], .ok ())) := by
  refine ⟨?_, ?_, ?_⟩
  · intro hf
    rw [mainRun, if_pos hf]
  · intro hf hd
    rw [mainRun, if_neg (by rw [hf]; simp), hd]
  · intro doc m hf hd hb
    rw [mainRun, if_neg (by rw [hf]; simp), hd]
    unfold travisYamlAddStages
    rw [hb]
    rfl

theorem c8_amended_witness :
    mainRun ⟨false, [], [], .error (), []⟩ = ([], .error ()) :=
  (c8_amended_phase_aborts ⟨false, [], [], .error (), []⟩).1 rfl
